/-
Verification of the agent-budget-guard admission-control ledger and its
surrounding cost pipeline, as a shallow embedding in Lean 4.

Money amounts (USD) are embedded as rationals; the Python implementation
uses floats, but every claim under scrutiny is an exact-arithmetic
identity about the ledger protocol, so the rational embedding is the
faithful idealization.  Reservation ids are embedded as naturals drawn
from a fresh-id counter, modelling `str(uuid.uuid4())` freshness; the
reservation dictionary is an association list with unique keys.
-/
import Mathlib

namespace BudgetGuard


/-! ## The Budget Ledger (`SpendTracker`, src/agent_budget/tracking/tracker.py) -/

/-- State of `SpendTracker`: `_budget`, `_spent`, `_reserved`,
`_reservations` (dict from reservation id to reserved amount), plus the
fresh-id source standing in for `uuid.uuid4()`. -/
structure SpendTracker where
  budget : ℚ
  spent : ℚ
  reserved : ℚ
  reservations : List (ℕ × ℚ)
  nextId : ℕ
  deriving Repr, DecidableEq

instance exceptDecEq {ε α : Type} [DecidableEq ε] [DecidableEq α] :
    DecidableEq (Except ε α) := fun a b =>
  match a, b with
  | .error e1, .error e2 =>
      if h : e1 = e2 then .isTrue (by rw [h]) else .isFalse (by simp [h])
  | .error _, .ok _ => .isFalse (by simp)
  | .ok _, .error _ => .isFalse (by simp)
  | .ok v1, .ok v2 =>
      if h : v1 = v2 then .isTrue (by rw [h]) else .isFalse (by simp [h])

/-- Dictionary membership test / lookup: `reservation_id in self._reservations`
and `self._reservations[reservation_id]`. -/
def lookupRes : List (ℕ × ℚ) → ℕ → Option ℚ
  | [], _ => none
  | (k, v) :: rest, id => if k = id then some v else lookupRes rest id

/-- Dictionary deletion: `self._reservations.pop(reservation_id)` removes the
(unique) binding of the key. -/
def eraseRes (rs : List (ℕ × ℚ)) (id : ℕ) : List (ℕ × ℚ) :=
  rs.filter (fun p => p.1 ≠ id)

/-- `SpendTracker.__init__`: rejects a negative budget, otherwise starts with
zero spent, zero reserved and an empty reservation dict. -/
def SpendTracker.mk? (budget_usd : ℚ) : Option SpendTracker :=
  if budget_usd < 0 then none
  else some { budget := budget_usd, spent := 0, reserved := 0,
              reservations := [], nextId := 0 }

/-- Payload of `BudgetExceededError`: the `estimated_cost` and `remaining`
attributes it carries. -/
structure BudgetExceededError where
  estimated_cost : ℚ
  remaining : ℚ
  deriving Repr, DecidableEq

/-- `SpendTracker.check_and_reserve`: compute
`remaining = budget - spent - reserved`; if `estimated_cost > remaining`,
raise `BudgetExceededError(estimated_cost, remaining)` without touching the
state; otherwise mint a fresh id, add `estimated_cost` to `reserved`, record
the reservation and return the id together with the new state. -/
def check_and_reserve (t : SpendTracker) (estimated_cost : ℚ) :
    Except BudgetExceededError (ℕ × SpendTracker) :=
  let remaining := t.budget - t.spent - t.reserved
  if estimated_cost > remaining then
    .error ⟨estimated_cost, remaining⟩
  else
    .ok (t.nextId,
      { t with reserved := t.reserved + estimated_cost,
               reservations := (t.nextId, estimated_cost) :: t.reservations,
               nextId := t.nextId + 1 })

/-- `SpendTracker.commit`: raise `ValueError` if the id is not in the
reservation dict; otherwise pop the reservation, subtract its amount from
`reserved` and add `actual_cost` to `spent`. -/
def commit (t : SpendTracker) (reservation_id : ℕ) (actual_cost : ℚ) :
    Except Unit SpendTracker :=
  match lookupRes t.reservations reservation_id with
  | none => .error ()
  | some reserved_amount =>
      .ok { t with reservations := eraseRes t.reservations reservation_id,
                   reserved := t.reserved - reserved_amount,
                   spent := t.spent + actual_cost }

/-- `SpendTracker.rollback`: if the id is in the reservation dict, pop it and
subtract its amount from `reserved`; otherwise do nothing.  Never raises. -/
def rollback (t : SpendTracker) (reservation_id : ℕ) : SpendTracker :=
  match lookupRes t.reservations reservation_id with
  | none => t
  | some reserved_amount =>
      { t with reservations := eraseRes t.reservations reservation_id,
               reserved := t.reserved - reserved_amount }

/-- `SpendTracker.reset`: zero `spent` and `reserved` and clear the
reservation dict, keeping the budget. -/
def reset (t : SpendTracker) : SpendTracker :=
  { t with spent := 0, reserved := 0, reservations := [] }

/-- `SpendTracker.get_remaining`. -/
def get_remaining (t : SpendTracker) : ℚ :=
  t.budget - t.spent - t.reserved

/-- One operation of the ledger protocol. -/
inductive Op where
  | reserve (estimated_cost : ℚ)
  | commitOp (id : ℕ) (actual_cost : ℚ)
  | rollbackOp (id : ℕ)
  | resetOp
  deriving Repr, DecidableEq

/-- Apply one operation; a raising call (`BudgetExceededError` from reserve,
`ValueError` from commit) leaves the tracker unchanged, exactly as a Python
exception thrown from inside the method does. -/
def applyOp (t : SpendTracker) : Op → SpendTracker
  | .reserve e =>
      match check_and_reserve t e with
      | .ok (_, t') => t'
      | .error _ => t
  | .commitOp id a =>
      match commit t id a with
      | .ok t' => t'
      | .error _ => t
  | .rollbackOp id => rollback t id
  | .resetOp => reset t

/-- Run a sequence of ledger operations from an initial state. -/
def runOps (t : SpendTracker) (ops : List Op) : SpendTracker :=
  ops.foldl applyOp t

/-- Well-formedness of a tracker state: reservation keys are unique and all
below the fresh-id counter (which is what `uuid.uuid4()` freshness gives the
Python dict). -/
def SpendTracker.WF (t : SpendTracker) : Prop :=
  (t.reservations.map Prod.fst).Nodup ∧
  ∀ k ∈ t.reservations.map Prod.fst, k < t.nextId

/-- Sum of all amounts held in the reservation dict. -/
def resSum (t : SpendTracker) : ℚ :=
  (t.reservations.map Prod.snd).sum

/-- The combined reachability invariant: well-formed keys plus the
bookkeeping identity `reserved = Σ reservation amounts`. -/
def Inv (t : SpendTracker) : Prop :=
  t.WF ∧ t.reserved = resSum t

/-! ## Pricing resolver (`PricingTable._resolve_model`,
src/agent_budget_guard/cost/pricing.py)

`model.split("-")` and `"-".join(...)` are embedded at character level
(`String.toList`-based splitting on the dash), which agrees with Python
`str.split("-")` / `str.join`. -/

/-- The loaded pricing configuration: the keys of `_models` and the
`_aliases` mapping.  Per-model price data is irrelevant to resolution. -/
structure PricingTable where
  models : List String
  aliases : List (String × String)

/-- Alias-dict lookup: `model in self._aliases` / `self._aliases[model]`. -/
def lookupAlias : List (String × String) → String → Option String
  | [], _ => none
  | (k, v) :: rest, m => if k = m then some v else lookupAlias rest m

/-- `model.split("-")`. -/
def splitDash (s : String) : List String :=
  (s.toList.splitOn (Char.ofNat 45)).map List.asString

/-- `"-".join(parts)`. -/
def joinDash (parts : List String) : String :=
  String.intercalate (String.singleton (Char.ofNat 45)) parts

/-- `"-".join(parts[:i])`. -/
def candidate (parts : List String) (i : ℕ) : String :=
  joinDash (parts.take i)

/-- The suffix-stripping loop `for i in range(len(parts), 0, -1)`: try the
join of the first `i` segments, largest `i` first. -/
def tryStrip (pt : PricingTable) (parts : List String) : ℕ → Option String
  | 0 => none
  | i + 1 =>
      if pt.models.contains (candidate parts (i + 1)) then
        some (candidate parts (i + 1))
      else tryStrip pt parts i

/-- `PricingTable._resolve_model`: alias-dict lookup first, then exact
membership in `_models`, then the suffix-stripping loop, otherwise
`PricingDataError` naming the available models. -/
def resolve_model (pt : PricingTable) (model : String) :
    Except (List String) String :=
  match lookupAlias pt.aliases model with
  | some canonical => .ok canonical
  | none =>
      if pt.models.contains model then .ok model
      else
        match tryStrip pt (splitDash model) (splitDash model).length with
        | some c => .ok c
        | none => .error pt.models

/-! ## Output-token estimation (`estimate_completion_tokens`,
src/agent_budget_guard/utils/tokens.py) -/

/-- The `model_defaults` dict, in insertion order. -/
def model_defaults : List (String × ℕ) :=
  [("gpt-5.2", 4096), ("gpt-5.1", 4096), ("gpt-5", 4096), ("gpt-5-mini", 4096),
   ("gpt-5-nano", 4096), ("gpt-4.1", 4096), ("gpt-4o", 4096),
   ("gpt-4o-mini", 4096), ("o1", 4096), ("o3", 4096), ("o4-mini", 4096),
   ("gpt-4-turbo", 4096), ("gpt-4", 4096), ("gpt-3.5-turbo", 4096)]

/-- The `for model_prefix, max_val in model_defaults.items()` loop: first
entry whose key the model name starts with wins, default 4096.
(`model.startswith(p)` is embedded at character level.) -/
def findDefault : List (String × ℕ) → String → ℕ
  | [], _ => 4096
  | (pre, v) :: rest, model =>
      if pre.toList.isPrefixOf model.toList then v else findDefault rest model

/-- `estimate_completion_tokens`: the user's cap if given, otherwise
`min(int(input_tokens * 1.5), default_max)`; for reasoning models the
result is multiplied by 4.  (`int(n * 1.5)` on an integer `n` is exactly
`3 * n / 2` in truncated integer arithmetic.) -/
def estimate_completion_tokens (max_tokens : Option ℕ) (input_tokens : ℕ)
    (model : String) ( is_reasoning_model : Bool) : ℕ :=
  let estimated :=
    match max_tokens with
    | some m => m
    | none => min (input_tokens * 3 / 2) (findDefault model_defaults model)
  if is_reasoning_model then estimated * 4 else estimated

/-! ## Warning notifier (`_check_warnings`,
src/agent_budget/wrappers/openai.py and the twins in
src/agent_budget_guard/wrappers) -/

/-- The dict passed to the `on_warning` callback:
`{"threshold", "spent", "remaining", "budget"}`. -/
structure WarnPayload where
  threshold : ℚ
  spent : ℚ
  remaining : ℚ
  budget : ℚ
  deriving Repr, DecidableEq

/-- The guarded `for threshold in self._warning_thresholds` loop: fire each
threshold `≤ utilization` that is not yet in the fired set, adding it to the
set; returns the new fired set and the payloads passed to the callback, in
order. -/
def fireLoop (utilization spent remaining budget : ℚ) :
    List ℚ → List ℚ → List ℚ × List WarnPayload
  | [], fired => (fired, [])
  | th :: rest, fired =>
      if utilization ≥ th ∧ th ∉ fired then
        let next := fireLoop utilization spent remaining budget rest (th :: fired)
        (next.1, ⟨th, spent, remaining, budget⟩ :: next.2)
      else
        fireLoop utilization spent remaining budget rest fired

/-- `_check_warnings`: no-op without a callback or thresholds, no-op when
`budget ≤ 0`; otherwise run the firing loop on
`utilization = (spent + reserved) / budget * 100`. -/
def checkWarnings (hasCallback : Bool) (thresholds : List ℚ) (fired : List ℚ)
    (budget spent reserved : ℚ) : List ℚ × List WarnPayload :=
  if hasCallback = false ∨ thresholds = [] then (fired, [])
  else if budget ≤ 0 then (fired, [])
  else
    fireLoop ((spent + reserved) / budget * 100) spent
      (budget - spent - reserved) budget thresholds fired

/-- A session's settlements in sequence: each snapshot `(spent, reserved)`
is followed by a `_check_warnings` evaluation, threading the shared fired
set; collects all callback payloads. -/
def runWarnings (hasCallback : Bool) (thresholds : List ℚ) (budget : ℚ) :
    List (ℚ × ℚ) → List ℚ → List ℚ × List WarnPayload
  | [], fired => (fired, [])
  | sr :: rest, fired =>
      let step := checkWarnings hasCallback thresholds fired budget sr.1 sr.2
      let next := runWarnings hasCallback thresholds budget rest step.1
      (next.1, step.2 ++ next.2)

/-- Number of callback invocations for a given threshold value. -/
def countTh (ps : List WarnPayload) (th : ℚ) : ℕ :=
  ps.countP (fun p => decide (p.threshold = th))

/-! ## Streaming pass-through with deferred settlement
(`AsyncCompletionsWrapper._stream_generator`,
src/agent_budget_guard/wrappers/openai_async.py; the Anthropic variant is
the same protocol with a different terminal-event decoding). -/

/-- One element of the incremental response sequence: opaque content plus
the optional usage record `(prompt_tokens, completion_tokens)` carried by
the terminal chunk. -/
structure Chunk where
  content : ℕ
  usage : Option (ℕ × ℕ)
  deriving Repr, DecidableEq

/-- The real cost computed at the usage-bearing chunk:
`(prompt_tokens / 1000) * input_price + (completion_tokens / 1000) * output_price`. -/
def chunkCost (ip opr : ℚ) (u : ℕ × ℕ) : ℚ :=
  ((u.1 : ℚ) / 1000) * ip + ((u.2 : ℚ) / 1000) * opr

/-- The code after `yield chunk`, run when the consumer requests the next
element: if the chunk carries usage, commit its real cost (a failing commit
raises and the exception propagates out of the generator loop). -/
def settleChunk (ip opr : ℚ) (rid : ℕ) (t : SpendTracker) (c : Chunk) :
    Except Unit SpendTracker :=
  match c.usage with
  | none => .ok t
  | some u => commit t rid (chunkCost ip opr u)

/-- Result of driving the pass-through generator: the chunks the consumer
received, the final tracker state, and whether an exception escaped to the
consumer. -/
structure StreamResult where
  forwarded : List Chunk
  tracker : SpendTracker
  escaped : Bool
  deriving Repr, DecidableEq

/-- Drive `_stream_generator` against a transport stream yielding `chunks`
(then raising iff `raisesAfter`), consumed by a caller that requests at
most `pulls` elements before abandoning the iteration.  Generator
suspension is modelled exactly: a requested chunk is yielded before its
settle step runs, and the settle step runs only when the consumer requests
the following element (or the loop advances past the last chunk); closing
the generator at a suspended yield skips that settle step.  The `finally`
release guard runs `rollback` on every exit of a started generator; a
never-started generator (`pulls = 0`) never enters the `try`, so its guard
never runs. -/
def runStream (ip opr : ℚ) (rid : ℕ) (raisesAfter : Bool) :
    List Chunk → ℕ → SpendTracker → StreamResult
  | _, 0, t => ⟨[], t, false⟩
  | [], _ + 1, t => ⟨[], rollback t rid, raisesAfter⟩
  | c :: _, 1, t => ⟨[c], rollback t rid, false⟩
  | c :: rest, p + 2, t =>
      match settleChunk ip opr rid t c with
      | .error _ => ⟨[c], rollback t rid, true⟩
      | .ok t2 =>
          let res := runStream ip opr rid raisesAfter rest (p + 1) t2
          ⟨c :: res.forwarded, res.tracker, res.escaped⟩

/-! ## Theorems -/

/-! ## Basic lemmas about the ledger operations -/

theorem check_and_reserve_of_gt (t : SpendTracker) (e : ℚ)
    (h : e > get_remaining t) :
    check_and_reserve t e = .error ⟨e, get_remaining t⟩ := by
  simp [check_and_reserve, get_remaining] at h ⊢
  exact h

theorem check_and_reserve_of_le (t : SpendTracker) (e : ℚ)
    (h : e ≤ get_remaining t) :
    check_and_reserve t e =
      .ok (t.nextId,
        { t with reserved := t.reserved + e,
                 reservations := (t.nextId, e) :: t.reservations,
                 nextId := t.nextId + 1 }) := by
  simp [check_and_reserve, get_remaining] at h ⊢
  exact h

theorem lookupRes_eraseRes_self (rs : List (ℕ × ℚ)) (id : ℕ) :
    lookupRes (eraseRes rs id) id = none := by
  induction rs with
  | nil => rfl
  | cons p rest ih =>
      obtain ⟨k, v⟩ := p
      by_cases hk : k = id
      · simpa [eraseRes, List.filter, hk] using ih
      · simpa [eraseRes, List.filter, hk, lookupRes] using ih

theorem lookupRes_none_of_lt (rs : List (ℕ × ℚ)) (n : ℕ)
    (h : ∀ k ∈ rs.map Prod.fst, k < n) :
    lookupRes rs n = none := by
  induction rs with
  | nil => rfl
  | cons p rest ih =>
      obtain ⟨k, v⟩ := p
      have hk : k < n := h k (by simp)
      have hne : k ≠ n := Nat.ne_of_lt hk
      simp only [lookupRes, hne, if_false]
      exact ih (fun k hkmem => h k (by simp [hkmem]))

/-! ## C1 – C3 -/

/-- C1: Admission invariant.  For every sequence of ledger operations on a
`SpendTracker`, immediately after each successful `check_and_reserve` the
resulting state satisfies `spent + reserved ≤ total_budget`. -/
theorem C1_admission_invariant (init : SpendTracker) (ops : List Op)
    (e : ℚ) (id : ℕ) (t' : SpendTracker)
    (h : check_and_reserve (runOps init ops) e = .ok (id, t')) :
    t'.spent + t'.reserved ≤ t'.budget := by
  set t := runOps init ops with ht
  by_cases hc : e > get_remaining t
  · rw [check_and_reserve_of_gt t e hc] at h
    exact absurd h (by simp)
  · rw [check_and_reserve_of_le t e (not_lt.mp hc)] at h
    have h2 : t' = { t with reserved := t.reserved + e,
                            reservations := (t.nextId, e) :: t.reservations,
                            nextId := t.nextId + 1 } := by
      have := Except.ok.inj h
      exact ((Prod.mk.injEq _ _ _ _ ▸ this).2).symm
    subst h2
    simp only [get_remaining, not_lt] at hc
    simp only []
    linarith

/-- C1 witness. -/
theorem C1_admission_invariant_witness :
    SpendTracker.spent ⟨10, 0, 7, [(1, 4), (0, 3)], 2⟩ +
      SpendTracker.reserved ⟨10, 0, 7, [(1, 4), (0, 3)], 2⟩ ≤
      SpendTracker.budget ⟨10, 0, 7, [(1, 4), (0, 3)], 2⟩ :=
  C1_admission_invariant ⟨10, 0, 0, [], 0⟩ [.reserve 3] 4 1
    ⟨10, 0, 7, [(1, 4), (0, 3)], 2⟩ (by norm_num [runOps, applyOp, check_and_reserve])

/-- C2: `check_and_reserve` fails iff `estimated_cost > remaining`; on
failure the error carries exactly that estimate and that remaining and the
state is unchanged; on success a fresh id (not already in the reservation
map) is returned, `reserved` grows by the estimate, the id is recorded with
that amount, and `spent` and the budget are untouched; an estimate that
equals `remaining` exactly is admitted. -/
theorem C2_check_and_reserve_spec (t : SpendTracker) (e : ℚ) (hwf : t.WF) :
    ((∃ err, check_and_reserve t e = .error err) ↔ e > get_remaining t) ∧
    (∀ err, check_and_reserve t e = .error err →
        err.estimated_cost = e ∧ err.remaining = get_remaining t ∧
        applyOp t (.reserve e) = t) ∧
    (∀ id t', check_and_reserve t e = .ok (id, t') →
        lookupRes t.reservations id = none ∧
        lookupRes t'.reservations id = some e ∧
        t'.reserved = t.reserved + e ∧
        t'.spent = t.spent ∧ t'.budget = t.budget) ∧
    (e = get_remaining t → ∃ id t', check_and_reserve t e = .ok (id, t')) := by
  by_cases hc : e > get_remaining t
  · have herr := check_and_reserve_of_gt t e hc
    refine ⟨⟨fun _ => hc, fun _ => ⟨_, herr⟩⟩, ?_, ?_, ?_⟩
    · intro err h
      rw [herr] at h
      have := Except.error.inj h
      subst this
      refine ⟨rfl, rfl, ?_⟩
      simp [applyOp, herr]
    · intro id t' h
      rw [herr] at h
      exact absurd h (by simp)
    · intro heq
      exact absurd hc (by rw [heq]; exact lt_irrefl _)
  · have hok := check_and_reserve_of_le t e (not_lt.mp hc)
    refine ⟨⟨?_, fun h => absurd h hc⟩, ?_, ?_, ?_⟩
    · rintro ⟨err, h⟩
      rw [hok] at h
      exact absurd h (by simp)
    · intro err h
      rw [hok] at h
      exact absurd h (by simp)
    · intro id t' h
      rw [hok] at h
      have hinj := Except.ok.inj h
      have hid : id = t.nextId := ((Prod.mk.injEq _ _ _ _ ▸ hinj).1).symm
      have ht' := (Prod.mk.injEq _ _ _ _ ▸ hinj).2
      subst hid
      subst ht'
      refine ⟨lookupRes_none_of_lt _ _ hwf.2, ?_, rfl, rfl, rfl⟩
      simp [lookupRes]
    · intro heq
      exact ⟨_, _, hok⟩

/-- C2 witness. -/
theorem C2_check_and_reserve_spec_witness :
    SpendTracker.WF ⟨10, 2, 3, [(0, 3)], 1⟩ ∧
    (5 = get_remaining ⟨10, 2, 3, [(0, 3)], 1⟩ →
      ∃ id t', check_and_reserve ⟨10, 2, 3, [(0, 3)], 1⟩ 5 = .ok (id, t')) := by
  have hwf : SpendTracker.WF ⟨10, 2, 3, [(0, 3)], 1⟩ := by
    refine ⟨by decide, by decide⟩
  exact ⟨hwf, (C2_check_and_reserve_spec ⟨10, 2, 3, [(0, 3)], 1⟩ 5 hwf).2.2.2⟩

/-- C3: Conservation of commit.  If the tracker holds a live reservation
`id` of amount `r`, then for every `actual ≥ 0`, `commit id actual` succeeds,
removes the reservation, decreases `reserved` by exactly `r`, increases
`spent` by exactly `actual`, and leaves the budget unchanged — even when
`actual` differs from `r`. -/
theorem C3_commit_conservation (t : SpendTracker) (id : ℕ) (r actual : ℚ)
    (hlive : lookupRes t.reservations id = some r) (ha : 0 ≤ actual) :
    ∃ t', commit t id actual = .ok t' ∧
      lookupRes t'.reservations id = none ∧
      t'.reserved = t.reserved - r ∧
      t'.spent = t.spent + actual ∧
      t'.budget = t.budget := by
  have hok : commit t id actual =
      .ok { t with reservations := eraseRes t.reservations id,
                   reserved := t.reserved - r,
                   spent := t.spent + actual } := by
    simp [commit, hlive]
  exact ⟨_, hok, lookupRes_eraseRes_self _ _, rfl, rfl, rfl⟩

/-- C3 witness. -/
theorem C3_commit_conservation_witness :
    lookupRes (SpendTracker.reservations ⟨10, 0, 3, [(0, 3)], 1⟩) 0 = some 3 ∧
    (0 : ℚ) ≤ 5/2 ∧
    ∃ t', commit ⟨10, 0, 3, [(0, 3)], 1⟩ 0 (5/2) = .ok t' ∧
      lookupRes t'.reservations 0 = none ∧
      t'.reserved = 3 - 3 ∧
      t'.spent = 0 + 5/2 ∧
      t'.budget = 10 :=
  ⟨by decide, by norm_num,
   C3_commit_conservation ⟨10, 0, 3, [(0, 3)], 1⟩ 0 3 (5/2) (by decide) (by norm_num)⟩

/-! ## C5, C6 – rollback idempotence and invalid commit references -/

/-- C5: Rollback idempotence.  On a live id, `rollback` removes the
reservation and subtracts its amount from `reserved` without touching
`spent`; on an unknown id it is an exact no-op; a second rollback of the
same id, and a rollback of an already-committed id, change nothing and
raise nothing (`rollback` is total). -/
theorem C5_rollback_idempotent (t : SpendTracker) (id : ℕ) :
    (∀ r, lookupRes t.reservations id = some r →
        lookupRes (rollback t id).reservations id = none ∧
        (rollback t id).reserved = t.reserved - r ∧
        (rollback t id).spent = t.spent ∧
        (rollback t id).budget = t.budget) ∧
    (lookupRes t.reservations id = none → rollback t id = t) ∧
    rollback (rollback t id) id = rollback t id ∧
    (∀ a t', commit t id a = .ok t' → rollback t' id = t') := by
  refine ⟨?_, ?_, ?_, ?_⟩
  · intro r hl
    simp [rollback, hl]
    exact lookupRes_eraseRes_self _ _
  · intro hl
    simp [rollback, hl]
  · cases hl : lookupRes t.reservations id with
    | none => simp [rollback, hl]
    | some r =>
        have h1 : rollback t id =
            { t with reservations := eraseRes t.reservations id,
                     reserved := t.reserved - r } := by
          simp [rollback, hl]
        rw [h1]
        have h2 : lookupRes (eraseRes t.reservations id) id = none :=
          lookupRes_eraseRes_self _ _
        simp [rollback, h2]
  · intro a t' hc
    cases hl : lookupRes t.reservations id with
    | none => simp [commit, hl] at hc
    | some r =>
        have ht' : t' = { t with reservations := eraseRes t.reservations id,
                                 reserved := t.reserved - r,
                                 spent := t.spent + a } := by
          simp [commit, hl] at hc
          exact hc.symm
        subst ht'
        have h2 : lookupRes (eraseRes t.reservations id) id = none :=
          lookupRes_eraseRes_self _ _
        simp [rollback, h2]

/-- C5 witness. -/
theorem C5_rollback_idempotent_witness :
    lookupRes (SpendTracker.reservations ⟨10, 0, 3, [(0, 3)], 1⟩) 0 = some 3 ∧
    lookupRes (rollback ⟨10, 0, 3, [(0, 3)], 1⟩ 0).reservations 0 = none ∧
    (rollback ⟨10, 0, 3, [(0, 3)], 1⟩ 0).reserved = 3 - 3 ∧
    (rollback ⟨10, 0, 3, [(0, 3)], 1⟩ 0).spent = 0 ∧
    (rollback ⟨10, 0, 3, [(0, 3)], 1⟩ 0).budget = 10 :=
  ⟨by decide,
   (C5_rollback_idempotent ⟨10, 0, 3, [(0, 3)], 1⟩ 0).1 3 (by decide)⟩

/-- C6: committing an id that is not in the reservation map (never issued,
already committed, or already rolled back) raises the invalid-reference
error and leaves the tracker unchanged — unlike `rollback`, which silently
ignores the unknown id. -/
theorem C6_commit_unknown_id (t : SpendTracker) (id : ℕ) (actual : ℚ)
    (h : lookupRes t.reservations id = none) :
    commit t id actual = .error () ∧
    applyOp t (.commitOp id actual) = t ∧
    rollback t id = t := by
  have hc : commit t id actual = .error () := by
    simp [commit, h]
  refine ⟨hc, ?_, ?_⟩
  · simp [applyOp, hc]
  · simp [rollback, h]

/-- C6 witness. -/
theorem C6_commit_unknown_id_witness :
    commit ⟨10, 2, 3, [(0, 3)], 1⟩ 7 1 = .error () ∧
    applyOp ⟨10, 2, 3, [(0, 3)], 1⟩ (.commitOp 7 1) = ⟨10, 2, 3, [(0, 3)], 1⟩ ∧
    rollback ⟨10, 2, 3, [(0, 3)], 1⟩ 7 = ⟨10, 2, 3, [(0, 3)], 1⟩ :=
  C6_commit_unknown_id ⟨10, 2, 3, [(0, 3)], 1⟩ 7 1 (by decide)

/-! ## The bookkeeping invariant (C10) -/

theorem eraseRes_cons_self (k : ℕ) (v : ℚ) (rest : List (ℕ × ℚ)) :
    eraseRes ((k, v) :: rest) k = eraseRes rest k := by
  simp [eraseRes, List.filter_cons]

theorem eraseRes_cons_ne (k id : ℕ) (v : ℚ) (rest : List (ℕ × ℚ))
    (h : k ≠ id) :
    eraseRes ((k, v) :: rest) id = (k, v) :: eraseRes rest id := by
  simp [eraseRes, List.filter_cons, h]

theorem eraseRes_of_not_mem (rs : List (ℕ × ℚ)) (id : ℕ)
    (h : id ∉ rs.map Prod.fst) : eraseRes rs id = rs := by
  induction rs with
  | nil => rfl
  | cons p rest ih =>
      obtain ⟨k, v⟩ := p
      simp only [List.map_cons, List.mem_cons] at h
      push_neg at h
      have hk : k ≠ id := fun hkeq => h.1 hkeq.symm
      rw [eraseRes_cons_ne k id v rest hk, ih h.2]

theorem resSum_eraseRes (rs : List (ℕ × ℚ)) (id : ℕ) (r : ℚ)
    (hnd : (rs.map Prod.fst).Nodup) (hl : lookupRes rs id = some r) :
    ((eraseRes rs id).map Prod.snd).sum = (rs.map Prod.snd).sum - r := by
  induction rs with
  | nil => simp [lookupRes] at hl
  | cons p rest ih =>
      obtain ⟨k, v⟩ := p
      simp only [List.map_cons, List.nodup_cons] at hnd
      by_cases hk : k = id
      · subst hk
        simp [lookupRes] at hl
        subst hl
        rw [eraseRes_cons_self, eraseRes_of_not_mem rest k hnd.1]
        simp only [List.map_cons, List.sum_cons]
        ring
      · simp only [lookupRes, if_neg hk] at hl
        rw [eraseRes_cons_ne k id v rest hk]
        simp only [List.map_cons, List.sum_cons]
        rw [ih hnd.2 hl]
        ring

theorem keys_eraseRes_sublist (rs : List (ℕ × ℚ)) (id : ℕ) :
    ((eraseRes rs id).map Prod.fst).Sublist (rs.map Prod.fst) :=
  (List.filter_sublist rs).map Prod.fst

theorem Inv_applyOp (t : SpendTracker) (op : Op) (h : Inv t) :
    Inv (applyOp t op) := by
  obtain ⟨⟨hnd, hlt⟩, hsum⟩ := h
  cases op with
  | reserve e =>
      by_cases hc : e > get_remaining t
      · simp [applyOp, check_and_reserve_of_gt t e hc]
        exact ⟨⟨hnd, hlt⟩, hsum⟩
      · simp only [applyOp, check_and_reserve_of_le t e (not_lt.mp hc)]
        refine ⟨⟨?_, ?_⟩, ?_⟩
        · simp only [List.map_cons, List.nodup_cons]
          exact ⟨fun hmem => lt_irrefl _ (hlt _ hmem), hnd⟩
        · intro k hk
          simp only [List.map_cons, List.mem_cons] at hk
          cases hk with
          | inl hk => subst hk; exact Nat.lt_succ_self _
          | inr hk => exact Nat.lt_succ_of_lt (hlt k hk)
        · simp [resSum] at hsum ⊢
          rw [hsum]
          ring
  | commitOp id a =>
      cases hl : lookupRes t.reservations id with
      | none => simpa [applyOp, commit, hl] using ⟨⟨hnd, hlt⟩, hsum⟩
      | some r =>
          simp only [applyOp, commit, hl]
          refine ⟨⟨?_, ?_⟩, ?_⟩
          · exact hnd.sublist (keys_eraseRes_sublist _ _)
          · intro k hk
            exact hlt k ((keys_eraseRes_sublist _ _).subset hk)
          · simp only [resSum] at hsum ⊢
            rw [resSum_eraseRes t.reservations id r hnd hl, hsum]
  | rollbackOp id =>
      cases hl : lookupRes t.reservations id with
      | none => simpa [applyOp, rollback, hl] using ⟨⟨hnd, hlt⟩, hsum⟩
      | some r =>
          simp only [applyOp, rollback, hl]
          refine ⟨⟨?_, ?_⟩, ?_⟩
          · exact hnd.sublist (keys_eraseRes_sublist _ _)
          · intro k hk
            exact hlt k ((keys_eraseRes_sublist _ _).subset hk)
          · simp only [resSum] at hsum ⊢
            rw [resSum_eraseRes t.reservations id r hnd hl, hsum]
  | resetOp =>
      refine ⟨⟨?_, ?_⟩, ?_⟩ <;> simp [applyOp, reset, resSum]

theorem Inv_runOps (t : SpendTracker) (ops : List Op) (h : Inv t) :
    Inv (runOps t ops) := by
  induction ops generalizing t with
  | nil => exact h
  | cons op rest ih => exact ih _ (Inv_applyOp t op h)

theorem Inv_mk? (b : ℚ) (t0 : SpendTracker) (h : SpendTracker.mk? b = some t0) :
    Inv t0 := by
  unfold SpendTracker.mk? at h
  by_cases hb : b < 0
  · simp [hb] at h
  · simp [hb] at h
    subst h
    exact ⟨⟨by simp, by simp⟩, by simp [resSum]⟩

/-- C10: the implicit bookkeeping invariant.  For every tracker built by the
constructor and every sequence of reserve / commit / rollback / reset
operations, the `reserved` counter equals the sum of the amounts in the
reservation map; hence once the map is empty (all reservations settled),
`reserved` is exactly `0`. -/
theorem C10_reserved_eq_resSum (b : ℚ) (t0 : SpendTracker)
    (h0 : SpendTracker.mk? b = some t0) (ops : List Op) :
    (runOps t0 ops).reserved = resSum (runOps t0 ops) ∧
    ((runOps t0 ops).reservations = [] → (runOps t0 ops).reserved = 0) := by
  have h := Inv_runOps t0 ops (Inv_mk? b t0 h0)
  refine ⟨h.2, fun hemp => ?_⟩
  rw [h.2]
  simp [resSum, hemp]

/-- C10 witness: reserve, reserve, commit one, roll the other back — the
counter tracks the map throughout and ends at zero. -/
theorem C10_reserved_eq_resSum_witness :
    SpendTracker.mk? 10 = some ⟨10, 0, 0, [], 0⟩ ∧
    ((runOps ⟨10, 0, 0, [], 0⟩
        [.reserve 3, .reserve 4, .commitOp 0 2, .rollbackOp 1]).reserved =
      resSum (runOps ⟨10, 0, 0, [], 0⟩
        [.reserve 3, .reserve 4, .commitOp 0 2, .rollbackOp 1]) ∧
     ((runOps ⟨10, 0, 0, [], 0⟩
        [.reserve 3, .reserve 4, .commitOp 0 2, .rollbackOp 1]).reservations = [] →
      (runOps ⟨10, 0, 0, [], 0⟩
        [.reserve 3, .reserve 4, .commitOp 0 2, .rollbackOp 1]).reserved = 0)) :=
  ⟨by norm_num [SpendTracker.mk?],
   C10_reserved_eq_resSum 10 ⟨10, 0, 0, [], 0⟩ (by norm_num [SpendTracker.mk?]) _⟩

theorem tryStrip_eq_none_iff (pt : PricingTable) (parts : List String) :
    ∀ n, tryStrip pt parts n = none ↔
      ∀ i, 0 < i → i ≤ n → pt.models.contains (candidate parts i) = false := by
  intro n
  induction n with
  | zero =>
      simp only [tryStrip, true_iff]
      intro i h1 h2
      omega
  | succ n ih =>
      by_cases hc : pt.models.contains (candidate parts (n + 1)) = true
      · simp only [tryStrip, hc, if_true]
        constructor
        · intro h
          exact absurd h (by simp)
        · intro h
          have hfalse := h (n + 1) (Nat.succ_pos n) le_rfl
          rw [hc] at hfalse
          exact absurd hfalse (by simp)
      · have hc' : pt.models.contains (candidate parts (n + 1)) = false :=
          Bool.not_eq_true _ ▸ hc
        simp only [tryStrip, hc', Bool.false_eq_true, if_false, ih]
        constructor
        · intro h i h1 h2
          rcases Nat.lt_or_ge i (n + 1) with h3 | h3
          · exact h i h1 (by omega)
          · have h4 : i = n + 1 := by omega
            rw [h4]; exact hc'
        · intro h i h1 h2
          exact h i h1 (Nat.le_succ_of_le h2)

theorem tryStrip_eq_some (pt : PricingTable) (parts : List String) :
    ∀ n c, tryStrip pt parts n = some c →
      ∃ i, 0 < i ∧ i ≤ n ∧ c = candidate parts i ∧
        pt.models.contains (candidate parts i) = true ∧
        ∀ j, i < j → j ≤ n → pt.models.contains (candidate parts j) = false := by
  intro n
  induction n with
  | zero =>
      intro c h
      simp [tryStrip] at h
  | succ n ih =>
      intro c h
      by_cases hc : pt.models.contains (candidate parts (n + 1)) = true
      · simp only [tryStrip, hc, if_true, Option.some.injEq] at h
        refine ⟨n + 1, Nat.succ_pos n, le_rfl, h.symm, hc, ?_⟩
        intro j h1 h2
        omega
      · have hc' : pt.models.contains (candidate parts (n + 1)) = false :=
          Bool.not_eq_true _ ▸ hc
        simp only [tryStrip, hc', Bool.false_eq_true, if_false] at h
        obtain ⟨i, hi1, hi2, hi3, hi4, hi5⟩ := ih c h
        refine ⟨i, hi1, Nat.le_succ_of_le hi2, hi3, hi4, ?_⟩
        intro j h1 h2
        rcases Nat.lt_or_ge j (n + 1) with h3 | h3
        · exact hi5 j h1 (by omega)
        · have h4 : j = n + 1 := by omega
          rw [h4]; exact hc'

/-! ## C7 -/

/-- C7 counterexample: in a table where `"m"` is both a known model and an
alias key mapped to `"n"`, `_resolve_model "m"` follows the alias and
returns `"n"`, not `"m"` — the alias lookup runs before the exact match,
so "exact match wins over the alias mapping" fails. -/
theorem C7_exact_match_counterexample :
    resolve_model ⟨["m", "n"], [("m", "n")]⟩ "m" = .ok "n" ∧
    Except.ok "n" ≠ (Except.ok "m" : Except (List String) String) :=
  ⟨by decide, by decide⟩

/-- C7 amended: resolution first tries the alias table (the alias mapping
wins over an exact match), else an exact match against the known models,
else progressively strips trailing dash-delimited segments from the right
until a known model remains (the longest known dash-prefix), and otherwise
fails with a not-found error naming the available models. -/
theorem C7_resolution_order_amended (pt : PricingTable) (model : String) :
    (∀ c, lookupAlias pt.aliases model = some c →
        resolve_model pt model = .ok c) ∧
    (lookupAlias pt.aliases model = none →
      pt.models.contains model = true →
        resolve_model pt model = .ok model) ∧
    (lookupAlias pt.aliases model = none →
      pt.models.contains model = false →
        (∀ c, resolve_model pt model = .ok c →
          ∃ i, 0 < i ∧ i ≤ (splitDash model).length ∧
            c = candidate (splitDash model) i ∧
            pt.models.contains c = true ∧
            ∀ j, i < j → j ≤ (splitDash model).length →
              pt.models.contains (candidate (splitDash model) j) = false) ∧
        ((resolve_model pt model = .error pt.models) ↔
          ∀ i, 0 < i → i ≤ (splitDash model).length →
            pt.models.contains (candidate (splitDash model) i) = false)) := by
  refine ⟨?_, ?_, ?_⟩
  · intro c hc
    simp [resolve_model, hc]
  · intro ha hm
    have hmem : model ∈ pt.models := by simpa using hm
    simp [resolve_model, ha, hmem]
  · intro ha hm
    constructor
    · intro c hc
      simp only [resolve_model, ha, hm, Bool.false_eq_true, if_false] at hc
      cases hs : tryStrip pt (splitDash model) (splitDash model).length with
      | none => simp [hs] at hc
      | some c0 =>
          simp only [hs, Except.ok.injEq] at hc
          subst hc
          obtain ⟨i, hi1, hi2, hi3, hi4, hi5⟩ := tryStrip_eq_some pt _ _ _ hs
          exact ⟨i, hi1, hi2, hi3, hi3 ▸ hi4, hi5⟩
    · constructor
      · intro he
        simp only [resolve_model, ha, hm, Bool.false_eq_true, if_false] at he
        cases hs : tryStrip pt (splitDash model) (splitDash model).length with
        | none => exact (tryStrip_eq_none_iff pt _ _).mp hs
        | some c0 => simp [hs] at he
      · intro h
        have hs : tryStrip pt (splitDash model) (splitDash model).length = none :=
          (tryStrip_eq_none_iff pt _ _).mpr h
        simp only [resolve_model, ha, hm, Bool.false_eq_true, if_false, hs]

/-- C7 amended witness: `"m-1-2"` with known models `{"m"}` resolves by
stripping to the longest known dash-prefix `"m"`. -/
theorem C7_resolution_order_amended_witness :
    ∃ i, 0 < i ∧ i ≤ (splitDash "m-1-2").length ∧
      "m" = candidate (splitDash "m-1-2") i ∧
      (PricingTable.models ⟨["m"], []⟩).contains "m" = true ∧
      ∀ j, i < j → j ≤ (splitDash "m-1-2").length →
        (PricingTable.models ⟨["m"], []⟩).contains
          (candidate (splitDash "m-1-2") j) = false :=
  ((C7_resolution_order_amended ⟨["m"], []⟩ "m-1-2").2.2
      (by decide) (by decide)).1 "m" (by decide)

/-! ## C8 -/

/-- C8 counterexample: with no output cap, 10 input tokens and model
`"gpt-4o"` (not a reasoning model), the code estimates
`min(int(10 * 1.5), 4096) = 15` output tokens, while the claimed default —
the per-model ceiling — is 4096. -/
theorem C8_output_default_counterexample :
    estimate_completion_tokens none 10 "gpt-4o" false = 15 ∧
    findDefault model_defaults "gpt-4o" = 4096 ∧ (15 : ℕ) ≠ 4096 :=
  ⟨by decide, by decide, by decide⟩

/-- C8 amended: with an output cap the estimate equals the cap; with no cap
it is `min(int(1.5 × input_tokens), per-model ceiling)` — not the ceiling
itself; for reasoning models the estimate is additionally multiplied by the
fixed safety factor 4. -/
theorem C8_output_token_policy_amended (max_tokens : Option ℕ)
    (input_tokens : ℕ) (model : String) :
    (∀ m, max_tokens = some m →
        estimate_completion_tokens max_tokens input_tokens model false = m ∧
        estimate_completion_tokens max_tokens input_tokens model true = m * 4) ∧
    (max_tokens = none →
        estimate_completion_tokens max_tokens input_tokens model false =
          min (input_tokens * 3 / 2) (findDefault model_defaults model) ∧
        estimate_completion_tokens max_tokens input_tokens model true =
          min (input_tokens * 3 / 2) (findDefault model_defaults model) * 4) := by
  constructor
  · intro m hm
    subst hm
    exact ⟨rfl, rfl⟩
  · intro hm
    subst hm
    exact ⟨rfl, rfl⟩

/-- C8 amended witness. -/
theorem C8_output_token_policy_amended_witness :
    estimate_completion_tokens (some 100) 10 "o1" false = 100 ∧
    estimate_completion_tokens (some 100) 10 "o1" true = 100 * 4 :=
  (C8_output_token_policy_amended (some 100) 10 "o1").1 100 rfl

theorem fireLoop_fired_subset (u s r b : ℚ) :
    ∀ ts fired, fired ⊆ (fireLoop u s r b ts fired).1 := by
  intro ts
  induction ts with
  | nil => intro fired x hx; simpa [fireLoop] using hx
  | cons t rest ih =>
      intro fired x hx
      by_cases hc : u ≥ t ∧ t ∉ fired
      · simp only [fireLoop, if_pos hc]
        exact ih (t :: fired) (List.mem_cons_of_mem t hx)
      · simp only [fireLoop, if_neg hc]
        exact ih fired hx

theorem fireLoop_count_zero (u s r b th : ℚ) :
    ∀ ts fired, th ∈ fired →
      countTh (fireLoop u s r b ts fired).2 th = 0 := by
  intro ts
  induction ts with
  | nil => intro fired h; simp [fireLoop, countTh]
  | cons t rest ih =>
      intro fired h
      by_cases hc : u ≥ t ∧ t ∉ fired
      · have hne : ¬(t = th) := fun he => hc.2 (he ▸ h)
        have h0 := ih (t :: fired) (List.mem_cons_of_mem t h)
        simp only [fireLoop, if_pos hc, countTh, List.countP_cons] at h0 ⊢
        simp [h0, hne]
      · simp only [fireLoop, if_neg hc]
        exact ih fired h

theorem fireLoop_count_le_one (u s r b th : ℚ) :
    ∀ ts fired, countTh (fireLoop u s r b ts fired).2 th ≤ 1 ∧
      (0 < countTh (fireLoop u s r b ts fired).2 th →
        th ∈ (fireLoop u s r b ts fired).1) := by
  intro ts
  induction ts with
  | nil => intro fired; simp [fireLoop, countTh]
  | cons t rest ih =>
      intro fired
      by_cases hc : u ≥ t ∧ t ∉ fired
      · by_cases hth : t = th
        · subst hth
          have h0 := fireLoop_count_zero u s r b t rest (t :: fired)
            (List.mem_cons_self t fired)
          constructor
          · simp only [fireLoop, if_pos hc, countTh, List.countP_cons] at h0 ⊢
            simp [countTh] at h0
            simp
            exact h0
          · intro _
            simp only [fireLoop, if_pos hc]
            exact fireLoop_fired_subset u s r b rest (t :: fired)
              (List.mem_cons_self t fired)
        · have hrec := ih (t :: fired)
          constructor
          · simp only [fireLoop, if_pos hc, countTh, List.countP_cons] at hrec ⊢
            simp [hth]
            simpa [countTh] using hrec.1
          · intro hpos
            simp only [fireLoop, if_pos hc, countTh, List.countP_cons] at hpos ⊢
            simp [hth] at hpos
            exact hrec.2 (by simpa [countTh] using hpos)
      · simp only [fireLoop, if_neg hc]
        exact ih fired

theorem fireLoop_payload_mem (u s r b : ℚ) :
    ∀ ts fired p, p ∈ (fireLoop u s r b ts fired).2 →
      p.spent = s ∧ p.remaining = r ∧ p.budget = b ∧
      p.threshold ∈ ts ∧ u ≥ p.threshold ∧ p.threshold ∉ fired := by
  intro ts
  induction ts with
  | nil => intro fired p h; simp [fireLoop] at h
  | cons t rest ih =>
      intro fired p h
      by_cases hc : u ≥ t ∧ t ∉ fired
      · simp only [fireLoop, if_pos hc, List.mem_cons] at h
        cases h with
        | inl h => subst h; exact ⟨rfl, rfl, rfl, List.mem_cons_self t rest, hc.1, hc.2⟩
        | inr h =>
            obtain ⟨h1, h2, h3, h4, h5, h6⟩ := ih (t :: fired) p h
            exact ⟨h1, h2, h3, List.mem_cons_of_mem t h4, h5,
              fun hm => h6 (List.mem_cons_of_mem t hm)⟩
      · simp only [fireLoop, if_neg hc] at h
        obtain ⟨h1, h2, h3, h4, h5, h6⟩ := ih fired p h
        exact ⟨h1, h2, h3, List.mem_cons_of_mem t h4, h5, h6⟩

theorem checkWarnings_spec (cb : Bool) (ts fired : List ℚ) (b s r th : ℚ) :
    fired ⊆ (checkWarnings cb ts fired b s r).1 ∧
    (th ∈ fired → countTh (checkWarnings cb ts fired b s r).2 th = 0) ∧
    countTh (checkWarnings cb ts fired b s r).2 th ≤ 1 ∧
    (0 < countTh (checkWarnings cb ts fired b s r).2 th →
      th ∈ (checkWarnings cb ts fired b s r).1) ∧
    (∀ p ∈ (checkWarnings cb ts fired b s r).2,
      p.spent = s ∧ p.remaining = b - s - r ∧ p.budget = b ∧
      p.threshold ∈ ts ∧ (s + r) / b * 100 ≥ p.threshold ∧
      p.threshold ∉ fired ∧ 0 < b) := by
  unfold checkWarnings
  by_cases h1 : cb = false ∨ ts = []
  · rw [if_pos h1]
    simp [countTh, List.Subset.refl]
  · rw [if_neg h1]
    by_cases h2 : b ≤ 0
    · rw [if_pos h2]
      simp [countTh, List.Subset.refl]
    · rw [if_neg h2]
      refine ⟨fireLoop_fired_subset _ _ _ _ _ _,
        fun hm => fireLoop_count_zero _ _ _ _ _ _ _ hm,
        (fireLoop_count_le_one _ _ _ _ _ _ _).1,
        (fireLoop_count_le_one _ _ _ _ _ _ _).2, ?_⟩
      intro p hp
      obtain ⟨g1, g2, g3, g4, g5, g6⟩ := fireLoop_payload_mem _ _ _ _ _ _ p hp
      exact ⟨g1, g2, g3, g4, g5, g6, lt_of_not_le h2⟩

theorem runWarnings_spec (cb : Bool) (ts : List ℚ) (b th : ℚ) :
    ∀ snaps fired,
      fired ⊆ (runWarnings cb ts b snaps fired).1 ∧
      (th ∈ fired → countTh (runWarnings cb ts b snaps fired).2 th = 0) ∧
      countTh (runWarnings cb ts b snaps fired).2 th ≤ 1 ∧
      (0 < countTh (runWarnings cb ts b snaps fired).2 th →
        th ∈ (runWarnings cb ts b snaps fired).1) := by
  intro snaps
  induction snaps with
  | nil =>
      intro fired
      simp [runWarnings, countTh, List.Subset.refl]
  | cons sr rest ih =>
      intro fired
      obtain ⟨c1, c2, c3, c4, c5⟩ := checkWarnings_spec cb ts fired b sr.1 sr.2 th
      obtain ⟨r1, r2, r3, r4⟩ := ih (checkWarnings cb ts fired b sr.1 sr.2).1
      simp only [runWarnings, countTh, List.countP_append] at c2 c3 c4 r2 r3 r4 ⊢
      refine ⟨fun x hx => r1 (c1 hx), ?_, ?_, ?_⟩
      · intro hm
        rw [c2 hm, r2 (c1 hm)]
      · rcases Nat.eq_zero_or_pos
          (countTh (checkWarnings cb ts fired b sr.1 sr.2).2 th) with hz | hp
        · simp only [countTh] at hz
          rw [hz]
          simpa using r3
        · have hzr := r2 (c4 hp)
          simp only [countTh] at hzr hp c3 ⊢
          omega
      · intro hpos
        rcases Nat.eq_zero_or_pos
          (countTh (checkWarnings cb ts fired b sr.1 sr.2).2 th) with hz | hp
        · simp only [countTh] at hz hpos
          exact r4 (by omega)
        · exact r1 (c4 hp)

theorem runWarnings_payload (cb : Bool) (ts : List ℚ) (b : ℚ) :
    ∀ snaps fired p, p ∈ (runWarnings cb ts b snaps fired).2 →
      0 < b ∧ p.threshold ∈ ts ∧ p.threshold ∉ fired ∧ p.budget = b ∧
      ∃ sr ∈ snaps, p.spent = sr.1 ∧ p.remaining = b - sr.1 - sr.2 ∧
        (sr.1 + sr.2) / b * 100 ≥ p.threshold := by
  intro snaps
  induction snaps with
  | nil => intro fired p h; simp [runWarnings] at h
  | cons sr rest ih =>
      intro fired p h
      simp only [runWarnings, List.mem_append] at h
      cases h with
      | inl h =>
          obtain ⟨g1, g2, g3, g4, g5, g6, g7⟩ :=
            (checkWarnings_spec cb ts fired b sr.1 sr.2 p.threshold).2.2.2.2 p h
          exact ⟨g7, g4, g6, g3, sr, List.mem_cons_self sr rest, g1, g2, g5⟩
      | inr h =>
          obtain ⟨g1, g2, g3, g4, sr2, hsr2, g5⟩ := ih _ p h
          exact ⟨g1, g2,
            fun hm => g3 ((checkWarnings_spec cb ts fired b sr.1 sr.2 p.threshold).1 hm),
            g4, sr2, List.mem_cons_of_mem sr hsr2, g5⟩

/-! ## C9 -/

/-- C9: across any sequence of settlements sharing one session's fired set,
each threshold value triggers the warning callback at most once; every
callback fires only with a positive budget at a settlement whose
utilization `(spent + reserved) / budget * 100` is at least the threshold,
the threshold is one of the configured ones not already fired, and the
payload carries that threshold together with the settlement's `spent`,
`remaining = budget - spent - reserved` and `budget`. -/
theorem C9_threshold_fires_once (cbSet : Bool) (thresholds : List ℚ)
    (budget : ℚ) (snaps : List (ℚ × ℚ)) (fired0 : List ℚ) (th : ℚ) :
    countTh (runWarnings cbSet thresholds budget snaps fired0).2 th ≤ 1 ∧
    ∀ p ∈ (runWarnings cbSet thresholds budget snaps fired0).2,
      0 < budget ∧ p.threshold ∈ thresholds ∧ p.threshold ∉ fired0 ∧
      p.budget = budget ∧
      ∃ sr ∈ snaps, p.spent = sr.1 ∧ p.remaining = budget - sr.1 - sr.2 ∧
        (sr.1 + sr.2) / budget * 100 ≥ p.threshold :=
  ⟨(runWarnings_spec cbSet thresholds budget th snaps fired0).2.2.1,
   fun p hp => runWarnings_payload cbSet thresholds budget snaps fired0 p hp⟩

/-- C9 witness: thresholds `{50}`, budget 10, two settlements both at or
above 50% utilization — exactly one callback invocation. -/
theorem C9_threshold_fires_once_witness :
    countTh (runWarnings true [50] 10 [(6, 0), (8, 0)] []).2 50 = 1 := by
  have hle : countTh (runWarnings true [50] 10 [(6, 0), (8, 0)] []).2 50 ≤ 1 :=
    (C9_threshold_fires_once true [50] 10 [(6, 0), (8, 0)] [] 50).1
  have hval : countTh (runWarnings true [50] 10 [(6, 0), (8, 0)] []).2 50 = 1 := by
    norm_num [runWarnings, checkWarnings, fireLoop, countTh]
  exact hval

theorem runStream_forwarded_take (ip opr : ℚ) (rid : ℕ) (ra : Bool) :
    ∀ pulls chunks t, ∃ n,
      (runStream ip opr rid ra chunks pulls t).forwarded = chunks.take n := by
  intro pulls
  induction pulls with
  | zero => intro chunks t; exact ⟨0, by simp [runStream]⟩
  | succ p ih =>
      intro chunks t
      cases chunks with
      | nil => exact ⟨0, by simp [runStream]⟩
      | cons c rest =>
          cases p with
          | zero => exact ⟨1, by simp [runStream]⟩
          | succ q =>
              cases hs : settleChunk ip opr rid t c with
              | error e => exact ⟨1, by simp [runStream, hs]⟩
              | ok t2 =>
                  obtain ⟨n, hn⟩ := ih rest t2
                  exact ⟨n + 1, by simp [runStream, hs, hn]⟩

theorem runStream_abandon (ip opr : ℚ) (rid : ℕ) (ra : Bool) :
    ∀ pulls chunks t, 1 ≤ pulls → pulls ≤ chunks.length →
      (∀ c ∈ chunks.take (pulls - 1), c.usage = none) →
      runStream ip opr rid ra chunks pulls t =
        ⟨chunks.take pulls, rollback t rid, false⟩ := by
  intro pulls
  induction pulls with
  | zero => intro chunks t h1 h2 h3; omega
  | succ p ih =>
      intro chunks t h1 h2 h3
      cases chunks with
      | nil => simp at h2
      | cons c rest =>
          cases p with
          | zero => simp [runStream]
          | succ q =>
              have hc : c.usage = none := h3 c (by simp)
              have hs : settleChunk ip opr rid t c = .ok t := by
                simp [settleChunk, hc]
              simp only [runStream, hs]
              rw [ih rest t (by omega) (by simp at h2; omega)
                (fun x hx => h3 x (by simpa using Or.inr hx))]
              simp

theorem runStream_complete (ip opr : ℚ) (rid : ℕ) (t : SpendTracker) (r : ℚ)
    (hlive : lookupRes t.reservations rid = some r) :
    ∀ body last u pulls,
      (∀ c ∈ body, c.usage = none) → Chunk.usage last = some u →
      body.length + 2 ≤ pulls →
      runStream ip opr rid false (body ++ [last]) pulls t =
        ⟨body ++ [last],
         { t with reservations := eraseRes t.reservations rid,
                  reserved := t.reserved - r,
                  spent := t.spent + chunkCost ip opr u },
         false⟩ := by
  intro body
  induction body with
  | nil =>
      intro last u pulls hb hu hp
      obtain ⟨q, rfl⟩ : ∃ q, pulls = q + 2 := ⟨pulls - 2, by omega⟩
      have hs : settleChunk ip opr rid t last =
          .ok { t with reservations := eraseRes t.reservations rid,
                       reserved := t.reserved - r,
                       spent := t.spent + chunkCost ip opr u } := by
        simp [settleChunk, hu, commit, hlive]
      simp only [List.nil_append, runStream, hs]
      have hnone : lookupRes (eraseRes t.reservations rid) rid = none :=
        lookupRes_eraseRes_self _ _
      simp [runStream, rollback, hnone]
  | cons c body2 ih =>
      intro last u pulls hb hu hp
      obtain ⟨q, rfl⟩ : ∃ q, pulls = q + 2 := ⟨pulls - 2, by omega⟩
      have hc : c.usage = none := hb c (by simp)
      have hs : settleChunk ip opr rid t c = .ok t := by
        simp [settleChunk, hc]
      simp only [List.cons_append, runStream, hs, List.append_eq]
      rw [ih last u (q + 1) (fun x hx => hb x (by simp [hx])) hu
        (by simp at hp ⊢; omega)]

theorem runStream_raises (ip opr : ℚ) (rid : ℕ) :
    ∀ chunks pulls t, (∀ c ∈ chunks, c.usage = none) →
      chunks.length + 1 ≤ pulls →
      runStream ip opr rid true chunks pulls t =
        ⟨chunks, rollback t rid, true⟩ := by
  intro chunks
  induction chunks with
  | nil =>
      intro pulls t hb hp
      obtain ⟨q, rfl⟩ : ∃ q, pulls = q + 1 := ⟨pulls - 1, by omega⟩
      simp [runStream]
  | cons c rest ih =>
      intro pulls t hb hp
      obtain ⟨q, rfl⟩ : ∃ q, pulls = q + 2 := ⟨pulls - 2, by simp at hp; omega⟩
      have hc : c.usage = none := hb c (by simp)
      have hs : settleChunk ip opr rid t c = .ok t := by
        simp [settleChunk, hc]
      simp only [runStream, hs]
      rw [ih (q + 1) t (fun x hx => hb x (by simp [hx])) (by simp at hp ⊢; omega)]

/-! ## C4 -/

/-- C4: streaming exactly-once settlement.  For a tracker holding the
generator's reservation: (i) whatever the consumer does, the chunks it
receives are an unmodified prefix of the transport's stream; (ii) on
full consumption of a stream whose terminal element carries the usage,
the real cost is committed when that element is reached, the reservation
is gone, and the trailing release guard's rollback is a no-op (spent grows
by the real cost, reserved drops by the reserved amount); (iii) on early
abandonment before the terminal element, the release guard's rollback is
the only settlement: the reservation is released with no spend recorded;
(iv) on a transport exception before any usage element, rollback runs and
the exception escapes.  In every case exactly one of commit / rollback has
lasting ledger effect. -/
theorem C4_streaming_exactly_once (ip opr : ℚ) (rid : ℕ) (t : SpendTracker)
    (r : ℚ) (hlive : lookupRes t.reservations rid = some r) :
    (∀ ra chunks pulls, ∃ n,
        (runStream ip opr rid ra chunks pulls t).forwarded = chunks.take n) ∧
    (∀ body last u pulls,
        (∀ c ∈ body, c.usage = none) → Chunk.usage last = some u →
        body.length + 2 ≤ pulls →
        runStream ip opr rid false (body ++ [last]) pulls t =
          ⟨body ++ [last],
           { t with reservations := eraseRes t.reservations rid,
                    reserved := t.reserved - r,
                    spent := t.spent + chunkCost ip opr u },
           false⟩) ∧
    (∀ ra chunks pulls, 1 ≤ pulls → pulls ≤ chunks.length →
        (∀ c ∈ chunks.take (pulls - 1), c.usage = none) →
        runStream ip opr rid ra chunks pulls t =
          ⟨chunks.take pulls, rollback t rid, false⟩ ∧
        (rollback t rid).spent = t.spent ∧
        (rollback t rid).reserved = t.reserved - r ∧
        lookupRes (rollback t rid).reservations rid = none) ∧
    (∀ chunks pulls, (∀ c ∈ chunks, c.usage = none) →
        chunks.length + 1 ≤ pulls →
        runStream ip opr rid true chunks pulls t =
          ⟨chunks, rollback t rid, true⟩) := by
  refine ⟨fun ra chunks pulls => runStream_forwarded_take ip opr rid ra pulls chunks t,
    runStream_complete ip opr rid t r hlive, ?_,
    fun chunks pulls => runStream_raises ip opr rid chunks pulls t⟩
  intro ra chunks pulls h1 h2 h3
  refine ⟨runStream_abandon ip opr rid ra pulls chunks t h1 h2 h3, ?_, ?_, ?_⟩
  · simp [rollback, hlive]
  · simp [rollback, hlive]
  · simp only [rollback, hlive]
    exact lookupRes_eraseRes_self _ _

/-- C4 witness: scenario 4 (three incremental chunks, then the terminal
usage chunk, fully consumed: the real cost 5 is committed, reserved drops
to 0) and scenario 5 (abandonment after one chunk: `spent = 0`,
`reserved = 0` after cleanup). -/
theorem C4_streaming_exactly_once_witness :
    runStream 1 2 5 false
        [⟨1, none⟩, ⟨2, none⟩, ⟨3, none⟩, ⟨4, some (1000, 2000)⟩] 6
        ⟨10, 0, 3, [(5, 3)], 6⟩ =
      ⟨[⟨1, none⟩, ⟨2, none⟩, ⟨3, none⟩, ⟨4, some (1000, 2000)⟩],
       ⟨10, 5, 0, [], 6⟩, false⟩ ∧
    runStream 1 2 5 false [⟨1, none⟩, ⟨2, some (1000, 2000)⟩] 1
        ⟨10, 0, 3, [(5, 3)], 6⟩ =
      ⟨[⟨1, none⟩], ⟨10, 0, 0, [], 6⟩, false⟩ := by
  have hmain := C4_streaming_exactly_once 1 2 5 ⟨10, 0, 3, [(5, 3)], 6⟩ 3 (by decide)
  constructor
  · have h := hmain.2.1 [⟨1, none⟩, ⟨2, none⟩, ⟨3, none⟩] ⟨4, some (1000, 2000)⟩
      (1000, 2000) 6 (by decide) rfl (by norm_num)
    simp only [List.cons_append, List.nil_append] at h
    rw [h]
    norm_num [eraseRes, chunkCost, StreamResult.mk.injEq, SpendTracker.mk.injEq]
  · have h := (hmain.2.2.1 false [⟨1, none⟩, ⟨2, some (1000, 2000)⟩] 1
      (by norm_num) (by norm_num) (by decide)).1
    rw [h]
    norm_num [rollback, lookupRes, eraseRes,
      StreamResult.mk.injEq, SpendTracker.mk.injEq]

end BudgetGuard
